import Mathlib

/-!
# Claude-Bridge: verification of the output pipeline and session registry

A shallow embedding of the text-processing pipeline
(`ansi_processor.py`, `discord_formatter.py`, `output_buffer.py`) and of the
session registry (`session.py`, `session_manager.py`) of the Claude-Bridge
repository, together with theorems settling the frozen claims.

Text is modelled as `List Char` (Python `str`).  Wall-clock timestamps are
modelled as rationals.  OS effects (process spawn, stdin writes, process
polling) are modelled as explicit oracle parameters, mirroring the boolean
results the Python code branches on.
-/

namespace ClaudeBridge

/-! ## Basic text utilities (Python `str` operations) -/

/-- The ESC byte `\x1B`. -/
def ESC : Char := Char.ofNat 27

/-- The BEL byte `\x07`. -/
def BEL : Char := Char.ofNat 7

/-- Whitespace as recognised by Python `str.strip` (ASCII subset). -/
def isPyWs (c : Char) : Bool :=
  c = ' ' || c = '\t' || c = '\n' || c = '\r' || c = Char.ofNat 11 || c = Char.ofNat 12

/-- Python `str.lstrip()`. -/
def lstripWs : List Char → List Char
  | [] => []
  | c :: cs => if isPyWs c then lstripWs cs else c :: cs

/-- Python `str.rstrip()`. -/
def rstripWs (l : List Char) : List Char := (lstripWs l.reverse).reverse

/-- Python `str.strip()`. -/
def stripWs (l : List Char) : List Char := rstripWs (lstripWs l)

/-- Python `str.split(sep)` for a single-character separator (keeps empties). -/
def splitOnChar (sep : Char) : List Char → List (List Char)
  | [] => [[]]
  | c :: cs =>
    let r := splitOnChar sep cs
    if c = sep then [] :: r
    else
      match r with
      | [] => [[c]]
      | h :: t => (c :: h) :: t

/-- Python `sep.join(pieces)`. -/
def joinWith (sep : List Char) : List (List Char) → List Char
  | [] => []
  | [x] => x
  | x :: y :: ys => x ++ sep ++ joinWith sep (y :: ys)

/-- Concatenation of a list of lists (no separator). -/
def joinAll {α : Type} : List (List α) → List α
  | [] => []
  | x :: xs => x ++ joinAll xs

/-- Python `needle in hay` (substring containment). -/
def containsSub (hay needle : List Char) : Bool :=
  if needle.isPrefixOf hay then true
  else
    match hay with
    | [] => false
    | _ :: t => containsSub t needle

/-- Python `str.lower()` (ASCII case folding, as used on this code's inputs). -/
def lowerL (l : List Char) : List Char := l.map Char.toLower

/-- Regex `\w` (ASCII subset of Python's default). -/
def isWordChar (c : Char) : Bool := c.isAlphanum || c = '_'

/-- Length of the maximal prefix of characters satisfying `p`
(the extent a greedy character-class star consumes). -/
def runLen (p : Char → Bool) : List Char → Nat
  | [] => 0
  | c :: cs => if p c then runLen p cs + 1 else 0

/-- `lo ≤ c ≤ hi` on code points, for regex ranges like `[@-_]`. -/
def inRange (lo hi : Nat) (c : Char) : Bool := lo ≤ c.toNat && c.toNat ≤ hi

/-- Decimal digits of a natural number (for `str.format` of an int). -/
def natCharsAux : Nat → Nat → List Char → List Char
  | 0, _, acc => acc
  | fuel + 1, n, acc =>
    let d := Char.ofNat (48 + n % 10)
    if n < 10 then d :: acc else natCharsAux fuel (n / 10) (d :: acc)

/-- Decimal rendering of a natural number. -/
def natChars (n : Nat) : List Char := natCharsAux (n + 1) n []

/-! ## ANSIProcessor.ANSI_PATTERNS — one matcher per compiled regex

Each matcher reports the length of the (unique, Python-backtracking) match
anchored at the head of the list, or `none`.  All eight patterns require a
literal ESC first, so none can match the empty string. -/

/-- `[0-9;]`, the CSI parameter class. -/
def isCsiParam (c : Char) : Bool := c.isDigit || c = ';'

/-- Pattern `csi`: `\x1B\[[0-9;]*[A-Za-z]`. -/
def matchCsi : List Char → Option Nat
  | e :: b :: rest =>
    if e = ESC ∧ b = '[' then
      let n := runLen isCsiParam rest
      match rest.drop n with
      | c :: _ => if c.isAlpha then some (n + 3) else none
      | [] => none
    else none
  | _ => none

/-- Pattern `osc`: `\x1B\][^\x07\x1B]*(?:\x07|\x1B\\)`.  The star cannot cross
BEL or ESC, so the match ends at the first BEL, or at an `ESC \` pair. -/
def matchOsc : List Char → Option Nat
  | e :: b :: rest =>
    if e = ESC ∧ b = ']' then
      let n := runLen (fun c => !(c = BEL || c = ESC)) rest
      match rest.drop n with
      | [] => none
      | c :: cs =>
        if c = BEL then some (n + 3)
        else
          match cs with
          | d :: _ => if d = '\\' then some (n + 4) else none
          | [] => none
    else none
  | _ => none

/-- Pattern `single_char`: `\x1B[#%()*+]`. -/
def matchSingleChar : List Char → Option Nat
  | e :: c :: _ =>
    if e = ESC ∧ (c = '#' ∨ c = '%' ∨ c = '(' ∨ c = ')' ∨ c = '*' ∨ c = '+') then some 2
    else none
  | _ => none

/-- Pattern `private`: `\x1B\[[?!><][0-9;]*[A-Za-z]`. -/
def matchPrivateMode : List Char → Option Nat
  | e :: b :: q :: rest =>
    if e = ESC ∧ b = '[' ∧ (q = '?' ∨ q = '!' ∨ q = '>' ∨ q = '<') then
      let n := runLen isCsiParam rest
      match rest.drop n with
      | c :: _ => if c.isAlpha then some (n + 4) else none
      | [] => none
    else none
  | _ => none

/-- The `\x9C` string terminator used by the DCS/APC/PM patterns. -/
def ST9C : Char := Char.ofNat 0x9C

/-- Shared body of `dcs` (`\x1BP[^\x1B]*(?:\x1B\\|\x9C)`), `apc` (`\x1B_…`)
and `pm` (`\x1B\^…`).  Greedy backtracking: the star extends to the first ESC;
the terminator is `ESC \` there if possible, otherwise the match ends just
after the last `\x9C` inside the star's extent. -/
def matchStringSeq (intro : Char) : List Char → Option Nat
  | e :: b :: rest =>
    if e = ESC ∧ b = intro then
      let n := runLen (fun c => !(c = ESC)) rest
      let escTerm : Bool :=
        match rest.drop n with
        | c :: d :: _ => c = ESC && d = '\\'
        | _ => false
      if escTerm then some (n + 4)
      else ((rest.take n).reverse.findIdx? (fun c => c = ST9C)).map (fun i => n - i + 2)
    else none
  | _ => none

/-- Pattern `st`: `\x1B\\`. -/
def matchStTerm : List Char → Option Nat
  | e :: c :: _ => if e = ESC ∧ c = '\\' then some 2 else none
  | _ => none

/-- The trailing cleanup regex of `strip_all_ansi`:
ESC, one char in `[@-_]`, a star over `[0-?]`, a star over the range from
space to slash, then one char in `[@-~]`.  The classes are pairwise disjoint,
so greedy matching is deterministic. -/
def matchFinalEsc : List Char → Option Nat
  | e :: c1 :: rest =>
    if e = ESC ∧ inRange 0x40 0x5F c1 then
      let a := runLen (inRange 0x30 0x3F) rest
      let b := runLen (inRange 0x20 0x2F) (rest.drop a)
      match rest.drop (a + b) with
      | f :: _ => if inRange 0x40 0x7E f then some (a + b + 3) else none
      | [] => none
    else none
  | _ => none

/-- `re.sub(pattern, '', text)`: scan left to right, drop each match, continue
after its end.  `fuel` is the length of the remaining input (every pattern in
this development matches at least one character, so a zero-length match is
treated as no match). -/
def subAt (m : List Char → Option Nat) : Nat → List Char → List Char
  | 0, _ => []
  | _, [] => []
  | fuel + 1, c :: cs =>
    match m (c :: cs) with
    | some (n + 1) => subAt m fuel ((c :: cs).drop (n + 1))
    | _ => c :: subAt m fuel cs

/-- `re.sub(pattern, '', text)` with fuel initialised to the input length. -/
def applySub (m : List Char → Option Nat) (l : List Char) : List Char :=
  subAt m l.length l

/-- `ANSIProcessor.strip_all_ansi`: apply the eight `ANSI_PATTERNS`
substitutions in dict order, then the final cleanup substitution
(`matchFinalEsc`). -/
def strip_all_ansi (text : List Char) : List Char :=
  if text = [] then text
  else
    applySub matchFinalEsc
      (applySub matchStTerm
        (applySub (matchStringSeq '^')
          (applySub (matchStringSeq '_')
            (applySub (matchStringSeq 'P')
              (applySub matchPrivateMode
                (applySub matchSingleChar
                  (applySub matchOsc
                    (applySub matchCsi text))))))))

/-- `ANSIProcessor.cleanup_incomplete_ansi`: the regex `\x1B[^\x1B]*$` can only
match starting at the last ESC of the text, so the text is truncated just
before its last ESC (if any). -/
def cleanup_incomplete_ansi (text : List Char) : List Char :=
  match text.reverse.findIdx? (fun c => c = ESC) with
  | some i => text.take (text.length - 1 - i)
  | none => text

/-- All nine substitution matchers fail on the given text (used to state that
a trailing escape sequence is truncated, i.e. not a complete grammar). -/
def ansiMatchersFailAt (t : List Char) : Bool :=
  (matchCsi t).isNone && (matchOsc t).isNone && (matchSingleChar t).isNone &&
  (matchPrivateMode t).isNone && (matchStringSeq 'P' t).isNone &&
  (matchStringSeq '_' t).isNone && (matchStringSeq '^' t).isNone &&
  (matchStTerm t).isNone && (matchFinalEsc t).isNone

/-- Input refuting idempotence of `strip_all_ansi`: the final cleanup pass
removes the inner `ESC A 0 m`, gluing the leading ESC to `[0m` and leaving a
fresh complete CSI sequence behind. -/
def stripCx : List Char := [ESC, ESC, 'A', '0', 'm', '[', '0', 'm']

/-- Input whose trailing bytes are an escape sequence truncated at input end. -/
def truncatedCx : List Char := 'a' :: 'b' :: 'c' :: [ESC, '[', '3', '1']

/-- An input whose single strip leaves no ESC byte behind. -/
def stripWitnessInput : List Char := ESC :: '[' :: '3' :: '1' :: 'm' :: 'o' :: 'k' :: []

/-! ## ANSIProcessor.CLAUDE_PATTERNS — existence of a match (`re.search`)

Only the boolean "was a match found" and the dict-ordered first matching
pattern name are ever consumed by the pipeline, so each compiled pattern is
embedded as an executable found-predicate. -/

/-- Run `p` at every suffix: `re.search` as existence over start positions. -/
def existsPos (p : List Char → Bool) : List Char → Bool
  | [] => p []
  | c :: cs => p (c :: cs) || existsPos p cs

/-- Like `existsPos` but `p` also sees the previous character (for `\b`). -/
def existsPosCtx (p : Option Char → List Char → Bool) :
    Option Char → List Char → Bool
  | prev, [] => p prev []
  | prev, c :: cs => p prev (c :: cs) || existsPosCtx p (some c) cs

/-- Case-insensitive literal at the head (literal given lowercased); returns
the suffix after the literal. -/
def stripCiLit : List Char → List Char → Option (List Char)
  | [], s => some s
  | _ :: _, [] => none
  | l :: ls, c :: cs => if c.toLower = l then stripCiLit ls cs else none

/-- Case-sensitive literal at the head; returns the suffix after it. -/
def stripLit : List Char → List Char → Option (List Char)
  | [], s => some s
  | _ :: _, [] => none
  | l :: ls, c :: cs => if c = l then stripLit ls cs else none

/-- The block characters of the `progress_bar` pattern. -/
def isBlockChar (c : Char) : Bool := ("█▉▊▋▌▍▎▏░▒▓".data).contains c

/-- The class `[|\/\-\\]` (pipe, slash, hyphen, backslash). -/
def isSpinBarChar (c : Char) : Bool := c = '|' || c = '/' || c = '-' || c = '\\'

/-- The class `[=#\-\.]` of the bracketed-bar alternative. -/
def isBarFillChar (c : Char) : Bool := c = '=' || c = '#' || c = '-' || c = '.'

/-- Pattern `progress_bar`:
`[█▉▊▋▌▍▎▏░▒▓]{10,}|\|[\/\-\\|]+\||\[[=#\-\.]+\]`, anchored at a position. -/
def progress_bar_at : List Char → Bool
  | [] => false
  | c :: cs =>
    decide (10 ≤ runLen isBlockChar (c :: cs)) ||
    (c == '|' &&
      (let r := runLen isSpinBarChar cs
       (List.range r).any (fun j => (cs.drop (j + 1)).head? == some '|'))) ||
    (c == '[' &&
      (let r := runLen isBarFillChar cs
       decide (1 ≤ r) && ((cs.drop r).head? == some ']')))

def progress_bar_found (t : List Char) : Bool := existsPos progress_bar_at t

/-- `\b`: true when the previous character is absent or not a word char. -/
def wordBound : Option Char → Bool
  | none => true
  | some c => !isWordChar c

/-- `d` digits at the head of `s`, then `after` on the rest. -/
def nDigitsThen (d : Nat) (s : List Char) (after : List Char → Bool) : Bool :=
  decide (d ≤ s.length) && (s.take d).all Char.isDigit && after (s.drop d)

/-- Pattern `percentage`: `\b\d{1,3}%|\b\d{1,3}\.\d%`, anchored at a
position with its left context. -/
def percentage_at (prev : Option Char) (s : List Char) : Bool :=
  wordBound prev &&
  (List.range 3).any (fun j =>
    let d := j + 1
    nDigitsThen d s (fun rest => rest.head? == some '%') ||
    nDigitsThen d s (fun rest =>
      rest.head? == some '.' &&
      ((rest.drop 1).head?.map Char.isDigit).getD false &&
      ((rest.drop 2).head? == some '%')))

def percentage_found (t : List Char) : Bool := existsPosCtx percentage_at none t

/-- The braille spinner characters of the `spinner` pattern. -/
def isBrailleSpin (c : Char) : Bool := ("⠋⠙⠹⠸⠼⠴⠦⠧⠇⠏".data).contains c

/-- Pattern `spinner`: `[⠋⠙⠹⠸⠼⠴⠦⠧⠇⠏]|[|\/\-\\]` — a single character of
either class anywhere in the line. -/
def spinner_found (t : List Char) : Bool :=
  t.any (fun c => isBrailleSpin c || isSpinBarChar c)

/-- Pattern `thinking` (IGNORECASE): `Thinking[\.]*|Processing[\.]*|Loading[\.]*`.
The trailing dot-star is nullable, so a match exists exactly when one of the
three words occurs. -/
def thinking_found (t : List Char) : Bool :=
  containsSub (lowerL t) "thinking".data ||
  containsSub (lowerL t) "processing".data ||
  containsSub (lowerL t) "loading".data

/-- Pattern `working` (IGNORECASE): `Working on it[\.]*|Please wait[\.]*`. -/
def working_found (t : List Char) : Bool :=
  containsSub (lowerL t) ("working on it".data) ||
  containsSub (lowerL t) ("please wait".data)

/-- `\s+(.+)`: at least one whitespace char, then at least one non-newline
char (the whitespace-plus may stop early, so any split works). -/
def wsThenAny (s : List Char) : Bool :=
  let r := runLen isPyWs s
  (List.range r).any (fun j =>
    match (s.drop (j + 1)).head? with
    | some c => decide (c ≠ '\n')
    | none => false)

/-- `:?\s+(.+)`: the optional colon, then `wsThenAny`. -/
def afterOptColon (s : List Char) : Bool :=
  wsThenAny s ||
  (match s with
   | ':' :: cs => wsThenAny cs
   | _ => false)

/-- Shared shape of the IGNORECASE patterns `LIT:?\s+(.+)` (file operations,
command execution, error/warning/success). -/
def ciWordArg_found (lit : List Char) (t : List Char) : Bool :=
  existsPos (fun s =>
    match stripCiLit lit s with
    | some rest => afterOptColon rest
    | none => false) t

/-- Pattern `success`: `Success:?\s+(.+)|✅\s*(.+)` (IGNORECASE). -/
def success_found (t : List Char) : Bool :=
  ciWordArg_found "success".data t ||
  existsPos (fun s =>
    match s with
    | c :: cs =>
      c == '✅' &&
      (let r := runLen isPyWs cs
       (List.range (r + 1)).any (fun a =>
         match (cs.drop a).head? with
         | some d => decide (d ≠ '\n')
         | none => false))
    | [] => false) t

/-- The `CLAUDE_PATTERNS` keys, as a type. -/
inductive SemType
  | progress_bar | percentage | spinner | thinking | working
  | file_created | file_modified | file_deleted
  | command_start | command_complete
  | error | warning | success
deriving DecidableEq, Repr

/-- `ANSIProcessor.extract_semantic_content`, reduced to the `type` field:
the first matching pattern in dict insertion order (the match text and groups
are stored but never consumed downstream). -/
def extract_semantic_type (t : List Char) : Option SemType :=
  if progress_bar_found t then some .progress_bar
  else if percentage_found t then some .percentage
  else if spinner_found t then some .spinner
  else if thinking_found t then some .thinking
  else if working_found t then some .working
  else if ciWordArg_found "created file".data t then some .file_created
  else if ciWordArg_found "modified file".data t then some .file_modified
  else if ciWordArg_found "deleted file".data t then some .file_deleted
  else if ciWordArg_found "running".data t then some .command_start
  else if ciWordArg_found "completed".data t then some .command_complete
  else if ciWordArg_found "error".data t then some .error
  else if ciWordArg_found "warning".data t then some .warning
  else if success_found t then some .success
  else none

/-- `ANSIProcessor.format_semantic_content`. -/
def format_semantic_content (text : List Char) : SemType → List Char
  | .error => "```diff\n- ".data ++ text ++ "\n```".data
  | .success => "```diff\n+ ".data ++ text ++ "\n```".data
  | .warning => "```fix\n".data ++ text ++ "\n```".data
  | .file_created | .file_modified | .file_deleted =>
      "```yaml\n".data ++ text ++ "\n```".data
  | .command_start | .command_complete =>
      "```bash\n".data ++ text ++ "\n```".data
  | .thinking | .working => '*' :: (text ++ ['*'])
  | _ => text

/-- `ANSIProcessor.is_progress_line`. -/
def is_progress_line (line : List Char) : Bool :=
  if stripWs line = [] then false
  else
    progress_bar_found line || percentage_found line || spinner_found line ||
    thinking_found line || working_found line

/-- `ANSIProcessor.should_suppress_line`. -/
def should_suppress_line (line : List Char) : Bool :=
  if stripWs line = [] then false
  else progress_bar_found line || spinner_found line || thinking_found line

/-- `ANSIProcessor.convert_ansi_to_discord`. -/
def convert_ansi_to_discord (text : List Char) : List Char :=
  if text = [] then text
  else
    match extract_semantic_type text with
    | some t => format_semantic_content (strip_all_ansi text) t
    | none => strip_all_ansi text

/-- `ANSIProcessor.process_claude_output`: drop suppressed lines, convert the
rest, re-join with newlines. -/
def process_claude_output (text : List Char) : List Char :=
  if text = [] then text
  else
    joinWith ['\n']
      (((splitOnChar '\n' text).filter (fun l => !should_suppress_line l)).map
        convert_ansi_to_discord)

/-- `analyze_output_patterns`'s `has_ansi` field (regex `\x1B` search). -/
def has_ansi_of (t : List Char) : Bool := t.contains ESC

/-- `analyze_output_patterns`'s `has_progress` field. -/
def has_progress_of (t : List Char) : Bool :=
  (splitOnChar '\n' t).any is_progress_line

/-- `analyze_output_patterns`'s `semantic_types` field.  Python deduplicates
through a `set`, whose iteration order is unspecified; only emptiness and
membership are consumed, so order-preserving dedup is used here. -/
def semantic_types_of (t : List Char) : List SemType :=
  ((splitOnChar '\n' t).filterMap extract_semantic_type).dedup

/-- `discord_formatter.MessageType`. -/
inductive MessageType
  | NORMAL | CODE | ERROR | SUCCESS | WARNING | INFO | PROGRESS
deriving DecidableEq, Repr

/-- `OutputBuffer._classify_line_type` (its `analysis` argument is
`analyze_output_patterns(content)`, inlined here). -/
def classify_line_type (content : List Char) : MessageType :=
  let lo := lowerL content
  if containsSub lo "error".data || containsSub lo "failed".data ||
      containsSub lo "exception".data then .ERROR
  else if containsSub lo "warning".data || containsSub lo "warn".data then .WARNING
  else if containsSub lo "success".data || containsSub lo "complete".data ||
      containsSub lo "done".data || containsSub lo ['✅'] then .SUCCESS
  else if has_progress_of content then .PROGRESS
  else if (semantic_types_of content).any (fun st =>
      st == SemType.file_created || st == SemType.file_modified ||
      st == SemType.command_start) then .INFO
  else if has_ansi_of content && !(semantic_types_of content).isEmpty then .CODE
  else .NORMAL

/-! ## DiscordFormatter — content analysis

`_detect_code_content` and `_detect_language` search a list of compiled
regexes; each is embedded as an executable found-predicate.  `re.MULTILINE`
`^` anchors are handled by `scanLineWs`, which tracks whether every character
since the most recent line start is whitespace. -/

/-- `\s+\w+\(` (after a literal such as `def`). -/
def wsWordParen (s : List Char) : Bool :=
  let r := runLen isPyWs s
  let s2 := s.drop r
  let w := runLen isWordChar s2
  decide (1 ≤ r) && decide (1 ≤ w) && ((s2.drop w).head? == some '(')

/-- `\s+\w+` (after a literal such as `class`). -/
def wsWord (s : List Char) : Bool :=
  let r := runLen isPyWs s
  decide (1 ≤ r) && decide (1 ≤ runLen isWordChar (s.drop r))

/-- `\s+\w+\s+LIT` (for `from\s+\w+\s+import`). -/
def wsWordWsLit (lit : List Char) (ci : Bool) (s : List Char) : Bool :=
  let r := runLen isPyWs s
  let s2 := s.drop r
  let w := runLen isWordChar s2
  let s3 := s2.drop w
  let r2 := runLen isPyWs s3
  decide (1 ≤ r) && decide (1 ≤ w) && decide (1 ≤ r2) &&
  (if ci then stripCiLit lit (s3.drop r2) else stripLit lit (s3.drop r2)).isSome

/-- Literal (case-sensitive or not) anywhere, followed by `after`. -/
def litThen_found (ci : Bool) (lit : List Char) (after : List Char → Bool)
    (t : List Char) : Bool :=
  existsPos (fun s =>
    match (if ci then stripCiLit lit s else stripLit lit s) with
    | some rest => after rest
    | none => false) t

/-- `{\s*\n.*\n\s*}` anchored at a position: an opening brace, whitespace
containing a newline, a dot-star that cannot cross the following newline,
then whitespace and a closing brace. -/
def braceBlock_at : List Char → Bool
  | '{' :: rest =>
    let r := runLen isPyWs rest
    (List.range r).any (fun a =>
      ((rest.drop a).head? == some '\n') &&
      (let s3 := rest.drop (a + 1)
       let k := runLen (fun c => !(c == '\n')) s3
       match s3.drop k with
       | _ :: s4 =>
         let r2 := runLen isPyWs s4
         (s4.drop r2).head? == some '}'
       | [] => false))
  | _ => false

/-- Scan for a MULTILINE `^\s*…` pattern: `p` is tried at each position whose
every character since the most recent line start is whitespace. -/
def scanLineWs (p : List Char → Bool) : Bool → List Char → Bool
  | _, [] => false
  | flag, c :: cs =>
    (flag && p (c :: cs)) || scanLineWs p (c == '\n' || (flag && isPyWs c)) cs

/-- The class `[{}()\[\];,]` of the programming-punctuation pattern. -/
def isProgPunct (c : Char) : Bool :=
  c = '{' || c = '}' || c = '(' || c = ')' || c = '[' || c = ']' || c = ';' || c = ','

/-- `^\s*[{}()\[\];,]` with MULTILINE. -/
def leadingPunct_found (t : List Char) : Bool :=
  scanLineWs (fun s => (s.head?.map isProgPunct).getD false) true t

/-- `\w+\.\w+\(` anchored at a position (one word char suffices on the left). -/
def methodCall_at : List Char → Bool
  | c :: rest =>
    isWordChar c &&
    (match rest with
     | '.' :: rest2 =>
       let w := runLen isWordChar rest2
       decide (1 ≤ w) && ((rest2.drop w).head? == some '(')
     | _ => false)
  | [] => false

/-- `DiscordFormatter._detect_code_content`: any of the ten indicators. -/
def detect_code_content (t : List Char) : Bool :=
  litThen_found false "def".data wsWordParen t ||
  litThen_found false "function".data wsWordParen t ||
  litThen_found false "class".data wsWord t ||
  litThen_found false "import".data wsWord t ||
  litThen_found false "from".data (wsWordWsLit "import".data false) t ||
  litThen_found false "#include".data
    (fun s => (s.drop (runLen isPyWs s)).head? == some '<') t ||
  litThen_found false "package".data wsWord t ||
  existsPos braceBlock_at t ||
  leadingPunct_found t ||
  existsPos methodCall_at t

/-- `if\s+__name__\s*==` after the literal `if`. -/
def ifNameMain (s : List Char) : Bool :=
  let r := runLen isPyWs s
  decide (1 ≤ r) &&
  (match stripCiLit "__name__".data (s.drop r) with
   | some s2 =>
     let r2 := runLen isPyWs s2
     (stripLit "==".data (s2.drop r2)).isSome
   | none => false)

/-- `\s+\w+\s*=` (for `const\s+\w+\s*=` and `let\s+\w+\s*=`). -/
def wsWordWsEq (s : List Char) : Bool :=
  let r := runLen isPyWs s
  let s2 := s.drop r
  let w := runLen isWordChar s2
  let s3 := s2.drop w
  let r2 := runLen isPyWs s3
  decide (1 ≤ r) && decide (1 ≤ w) && ((s3.drop r2).head? == some '=')

/-- `"\w+":` anchored at a position. -/
def jsonKey_at : List Char → Bool
  | '"' :: rest =>
    let w := runLen isWordChar rest
    decide (1 ≤ w) &&
    (match rest.drop w with
     | '"' :: ':' :: _ => true
     | _ => false)
  | _ => false

/-- The per-language pattern lists of `_detect_language` (IGNORECASE,
MULTILINE). -/
def pythonLangPat (t : List Char) : Bool :=
  litThen_found true "def".data wsWordParen t ||
  litThen_found true "import".data wsWord t ||
  litThen_found true "from".data (wsWordWsLit "import".data true) t ||
  litThen_found true "if".data ifNameMain t

def jsLangPat (t : List Char) : Bool :=
  litThen_found true "function".data wsWordParen t ||
  litThen_found true "const".data wsWordWsEq t ||
  litThen_found true "let".data wsWordWsEq t ||
  containsSub t "=>".data

def bashLangPat (t : List Char) : Bool :=
  containsSub (lowerL t) "#!/bin/bash".data ||
  scanLineWs (fun s =>
    match s with
    | '$' :: cs => decide (1 ≤ runLen isPyWs cs)
    | _ => false) true t ||
  litThen_found true "cd".data (fun s => decide (1 ≤ runLen isPyWs s)) t ||
  litThen_found true "ls".data (fun s => decide (1 ≤ runLen isPyWs s)) t

def jsonLangPat (t : List Char) : Bool :=
  scanLineWs (fun s => s.head? == some '{') true t ||
  existsPos jsonKey_at t ||
  scanLineWs (fun s => s.head? == some '[') true t

def yamlLangPat (t : List Char) : Bool :=
  scanLineWs (fun s =>
    let w := runLen isWordChar s
    decide (1 ≤ w) && ((s.drop w).head? == some ':')) true t ||
  scanLineWs (fun s =>
    match s with
    | '-' :: cs =>
      let r := runLen isPyWs cs
      decide (1 ≤ r) && decide (1 ≤ runLen isWordChar (cs.drop r))
    | _ => false) true t

def xmlLangPat (t : List Char) : Bool :=
  existsPos (fun s =>
    match s with
    | '<' :: rest =>
      let w := runLen isWordChar rest
      decide (1 ≤ w) && (rest.drop w).contains '>'
    | _ => false) t ||
  existsPos (fun s =>
    match s with
    | '<' :: '/' :: rest =>
      let w := runLen isWordChar rest
      decide (1 ≤ w) && ((rest.drop w).head? == some '>')
    | _ => false) t

def sqlLangPat (t : List Char) : Bool :=
  litThen_found true "select".data (fun s => decide (1 ≤ runLen isPyWs s)) t ||
  litThen_found true "from".data (fun s => decide (1 ≤ runLen isPyWs s)) t ||
  litThen_found true "where".data (fun s => decide (1 ≤ runLen isPyWs s)) t ||
  litThen_found true "insert".data (fun s => decide (1 ≤ runLen isPyWs s)) t

/-- `DiscordFormatter._detect_language`: first language (dict order) with a
matching pattern, else the empty string. -/
def detect_language (t : List Char) : List Char :=
  if pythonLangPat t then "python".data
  else if jsLangPat t then "javascript".data
  else if bashLangPat t then "bash".data
  else if jsonLangPat t then "json".data
  else if yamlLangPat t then "yaml".data
  else if xmlLangPat t then "xml".data
  else if sqlLangPat t then "sql".data
  else []

/-! ## DiscordFormatter — analysis record, splitting, chunk formatting -/

/-- `_analyze_structure` (integer fields; the float `avg_line_length` is
computed by the source but never read anywhere, so it is omitted). -/
structure TextStructure where
  empty_lines : Nat
  long_lines : Nat
  indentation_levels : Nat
  bullet_points : Nat
  numbered_lists : Nat
deriving DecidableEq, Repr

/-- The class `[-*+•]` of the bullet-point pattern. -/
def isBulletChar (c : Char) : Bool := c = '-' || c = '*' || c = '+' || c = '•'

/-- `re.match(r'^\s*[-*+•]\s', line)`. -/
def bullet_line (l : List Char) : Bool :=
  let r := runLen isPyWs l
  match l.drop r with
  | c :: d :: _ => isBulletChar c && isPyWs d
  | _ => false

/-- `re.match(r'^\s*\d+\.\s', line)`. -/
def numbered_line (l : List Char) : Bool :=
  let r := runLen isPyWs l
  let s := l.drop r
  let d := runLen Char.isDigit s
  decide (1 ≤ d) &&
  (match s.drop d with
   | '.' :: e :: _ => isPyWs e
   | _ => false)

def analyze_structure (t : List Char) : TextStructure :=
  let lines := splitOnChar '\n' t
  { empty_lines := (lines.filter (fun l => (stripWs l).isEmpty)).length
    long_lines := (lines.filter (fun l => decide (100 < l.length))).length
    indentation_levels := ((lines.filter (fun l => !(stripWs l).isEmpty)).map
      (fun l => l.length - (lstripWs l).length)).dedup.length
    bullet_points := (lines.filter bullet_line).length
    numbered_lists := (lines.filter numbered_line).length }

/-- The `recommended_format` strings of `_recommend_format`. -/
inductive RecFormat
  | code_block | inline_code | embed | normal
deriving DecidableEq, Repr

/-- `_calculate_priority`'s `type_priorities` table (`.get(_, 20)` never
falls through: every `MessageType` is a key). -/
def type_base_priority : MessageType → Nat
  | .ERROR => 100 | .WARNING => 80 | .SUCCESS => 60 | .INFO => 40
  | .CODE => 30 | .NORMAL => 20 | .PROGRESS => 10

/-- `DiscordFormatter._calculate_priority`. -/
def calculate_priority (t : List Char) (mt : MessageType) : Nat :=
  let p := type_base_priority mt
  let p := if t.length < 100 then p + 10 else p
  let lo := lowerL t
  if containsSub lo "error".data || containsSub lo "failed".data ||
      containsSub lo "success".data || containsSub lo "complete".data then p + 20
  else p

/-- `DiscordFormatter._recommend_format`. -/
def recommend_format (t : List Char) (mt : MessageType) : RecFormat :=
  if mt = MessageType.CODE ∨ detect_code_content t = true then .code_block
  else if mt = MessageType.ERROR ∨ mt = MessageType.WARNING then .embed
  else if t.length < 50 ∧ '\n' ∉ t then .inline_code
  else .normal

/-- `_analyze_content` (the fields that are read downstream; `has_file_paths`,
`has_urls` and `has_commands` are computed by the source but never consumed,
and are omitted).  The field `struct` embeds the `structure` sub-dict. -/
structure ContentAnalysis where
  length : Nat
  line_count : Nat
  has_code : Bool
  struct : TextStructure
  priority : Nat
  recommended_format : RecFormat
deriving DecidableEq, Repr

def analyze_content (t : List Char) (mt : MessageType) : ContentAnalysis :=
  { length := t.length
    line_count := (splitOnChar '\n' t).length
    has_code := detect_code_content t
    struct := analyze_structure t
    priority := calculate_priority t mt
    recommended_format := recommend_format t mt }

/-- The `SPLIT_STRATEGIES` keys. -/
inductive SplitStrategy
  | line_break | sentence | word | character
deriving DecidableEq, Repr

/-- The class `[.!?]` of the sentence-split pattern. -/
def isSentPunct (c : Char) : Bool := c = '.' || c = '!' || c = '?'

/-- A match of `[.!?]+\s+` anchored at the head: a maximal punctuation run
followed by a maximal (at least one) whitespace run. -/
def sentenceMatchAt (s : List Char) : Option Nat :=
  let p := runLen isSentPunct s
  if 1 ≤ p then
    let w := runLen isPyWs (s.drop p)
    if 1 ≤ w then some (p + w) else none
  else none

/-- `re.split(pattern, text)`: pieces between non-overlapping left-to-right
matches (`fuel` is the remaining length; matches are never empty here). -/
def splitByMatchAux (m : List Char → Option Nat) :
    Nat → List Char → List Char → List (List Char)
  | _, acc, [] => [acc.reverse]
  | 0, acc, rest => [acc.reverse ++ rest]
  | fuel + 1, acc, c :: cs =>
    match m (c :: cs) with
    | some (n + 1) =>
        acc.reverse :: splitByMatchAux m fuel [] ((c :: cs).drop (n + 1))
    | _ => splitByMatchAux m fuel (c :: acc) cs

def sentenceSplit (t : List Char) : List (List Char) :=
  splitByMatchAux sentenceMatchAt t.length [] t

/-- The `SPLIT_STRATEGIES` part lists. -/
def strategyParts : SplitStrategy → List Char → List (List Char)
  | .line_break, t => splitOnChar '\n' t
  | .sentence, t => sentenceSplit t
  | .word, t => splitOnChar ' ' t
  | .character, t => t.map (fun c => [c])

/-- The separator `_apply_split_strategy` re-adds between accumulated parts. -/
def strategySep : SplitStrategy → List Char
  | .line_break => ['\n']
  | .sentence => ['.', ' ']
  | .word => [' ']
  | .character => []

/-- The slices `part[i:i+maxLen]` of the forced character-level split of an
over-long part.  `fuel` is the part's length; Python's `range` with step 0
raises, so `maxLen = 0` is modelled as a single un-sliced part. -/
def chunkEvery (n : Nat) : Nat → List Char → List (List Char)
  | _, [] => []
  | 0, l => [l]
  | fuel + 1, l => if n = 0 then [l] else l.take n :: chunkEvery n fuel (l.drop n)

/-- One iteration of `_apply_split_strategy`'s accumulation loop. -/
def splitStep (maxLen : Nat) (sep : List Char) (st : List (List Char) × List Char)
    (part : List Char) : List (List Char) × List Char :=
  let chunks := st.1
  let current := st.2
  let test := current ++ (if current = [] then [] else sep) ++ part
  if test.length ≤ maxLen then (chunks, test)
  else
    let chunks := if current = [] then chunks else chunks ++ [current]
    if maxLen < part.length then (chunks ++ chunkEvery maxLen part.length part, [])
    else (chunks, part)

/-- `DiscordFormatter._apply_split_strategy` (the fallback for an unknown
strategy name cannot arise: the strategy is an enum here). -/
def apply_split_strategy (maxLen : Nat) (strat : SplitStrategy)
    (text : List Char) : List (List Char) :=
  let st := (strategyParts strat text).foldl
    (splitStep maxLen (strategySep strat)) ([], [])
  if st.2 = [] then st.1 else st.1 ++ [st.2]

/-- `DiscordFormatter._split_content`. -/
def split_content (maxLen : Nat) (text : List Char) (a : ContentAnalysis) :
    List (List Char) :=
  if a.length ≤ maxLen then [text]
  else
    let strat :=
      if 0 < a.struct.bullet_points ∨ 0 < a.struct.numbered_lists then
        SplitStrategy.line_break
      else if a.has_code = true then SplitStrategy.line_break
      else if maxLen * 3 < a.length then SplitStrategy.sentence
      else SplitStrategy.line_break
    apply_split_strategy maxLen strat text

/-- `discord_formatter.MessageChunk` (the wall-clock `timestamp` is omitted;
the metadata dict is flattened into fields, `fmt` holding the `format` key). -/
structure MessageChunk where
  content : List Char
  message_type : MessageType
  priority : Nat
  chunk_index : Nat
  total_chunks : Nat
  original_length : Nat
  fmt : RecFormat
deriving DecidableEq, Repr

/-- `DiscordFormatter._format_chunk`. -/
def format_chunk (maxLen : Nat) (content : List Char) (mt : MessageType)
    (a : ContentAnalysis) (idx total : Nat) : MessageChunk :=
  let formatted :=
    match a.recommended_format with
    | .code_block =>
        "```".data ++ detect_language content ++
          '\n' :: (stripWs content ++ "\n```".data)
    | .inline_code => '`' :: (stripWs content ++ ['`'])
    | _ => content
  let header := "**Part ".data ++ natChars (idx + 1) ++
    '/' :: (natChars total ++ "**\n".data)
  let withHeader :=
    if 1 < total ∧ (header ++ formatted).length ≤ maxLen then header ++ formatted
    else formatted
  { content := withHeader, message_type := mt, priority := a.priority,
    chunk_index := idx, total_chunks := total,
    original_length := content.length, fmt := a.recommended_format }

/-- Attach `enumerate` indices. -/
def withIdx : Nat → List (List Char) → List (Nat × List Char)
  | _, [] => []
  | i, c :: cs => (i, c) :: withIdx (i + 1) cs

/-- Discord's hard cap `DiscordFormatter.MAX_MESSAGE_LENGTH`. -/
def MAX_MESSAGE_LENGTH : Nat := 2000

/-- The constructor default `max_message_length = 1900`
("leave buffer for formatting"). -/
def DEFAULT_MAX_LENGTH : Nat := 1900

/-- `DiscordFormatter.format_output`. -/
def format_output (maxLen : Nat) (text : List Char) (mt : MessageType) :
    List MessageChunk :=
  if stripWs text = [] then []
  else
    let processed := process_claude_output text
    let a := analyze_content processed mt
    let chunks := split_content maxLen processed a
    (withIdx 0 chunks).map (fun ic =>
      format_chunk maxLen ic.2 mt a ic.1 chunks.length)

/-- `optimize_for_mobile`'s 800-char block accumulation over a code chunk's
lines. -/
def mobileBlocks : List (List Char) → List Char → List (List Char)
  | [], current => if current = [] then [] else [current]
  | l :: ls, current =>
    if 800 < (current ++ l ++ ['\n']).length then
      if current = [] then mobileBlocks ls (l ++ ['\n'])
      else current :: mobileBlocks ls (l ++ ['\n'])
    else mobileBlocks ls (current ++ l ++ ['\n'])

/-- `DiscordFormatter.optimize_for_mobile` (the `mobile_optimized` metadata
mark is dropped with the rest of the raw dict). -/
def optimize_for_mobile (chunks : List MessageChunk) : List MessageChunk :=
  chunks.foldr (fun c acc =>
    (if c.message_type = MessageType.CODE ∧ 1000 < c.content.length then
      (mobileBlocks (splitOnChar '\n' c.content) []).map (fun b =>
        { c with content := "```\n".data ++ (stripWs b ++ "\n```".data) })
    else [c]) ++ acc) []

/-! ## OutputBuffer — grouping, combining, flushing -/

/-- `output_buffer.OutputLine` (the metadata dict filled by `_analyze_line`
is stored but never read by the flush path, so it is omitted;  timestamps are
rationals standing for `time.time()` floats). -/
structure OutputLine where
  content : List Char
  timestamp : ℚ
  session_id : List Char
  line_type : MessageType
deriving DecidableEq

/-- `OutputBuffer.add_output` + `_analyze_line`: empty content is dropped;
a line still typed `NORMAL` is re-classified from its content.  The model
returns the `OutputLine` appended to the pending buffer (burst bookkeeping
and the immediate-flush trigger affect timing only, never data). -/
def add_output (sid : List Char) (content : List Char) (lt : MessageType)
    (now : ℚ) : Option OutputLine :=
  if content = [] then none
  else some
    { content := content, timestamp := now, session_id := sid,
      line_type :=
        if lt = MessageType.NORMAL then classify_line_type content else lt }

/-- `OutputBuffer._should_group_with_previous` (the final content-based
check `_are_related_content` is irrelevant: both its branches return true). -/
def should_group_with_previous (prev cur : OutputLine) : Bool :=
  if (3 : ℚ) < cur.timestamp - prev.timestamp then false
  else if prev.line_type ≠ cur.line_type ∧
      (prev.line_type = MessageType.ERROR ∨ cur.line_type = MessageType.ERROR) then
    false
  else if prev.line_type ≠ cur.line_type ∧
      (prev.line_type = MessageType.SUCCESS ∨ cur.line_type = MessageType.SUCCESS) then
    false
  else if prev.line_type = MessageType.PROGRESS ∨
      cur.line_type = MessageType.PROGRESS then
    decide (prev.line_type = cur.line_type)
  else true

/-- Loop of `_group_lines_intelligently`; the current group is kept reversed,
its head being the group's last line (the one compared against). -/
def groupGo : List OutputLine → List OutputLine → List (List OutputLine)
  | currentRev, [] => [currentRev.reverse]
  | currentRev, l :: rest =>
    let ok :=
      match currentRev with
      | p :: _ => should_group_with_previous p l
      | [] => true
    if ok = true ∧ currentRev.length < 20 then groupGo (l :: currentRev) rest
    else currentRev.reverse :: groupGo [l] rest

/-- `OutputBuffer._group_lines_intelligently`. -/
def group_lines_intelligently : List OutputLine → List (List OutputLine)
  | [] => []
  | l :: rest => groupGo [l] rest

/-- `OutputBuffer._combine_lines`. -/
def combine_lines (lines : List OutputLine) : List Char :=
  joinWith ['\n']
    ((lines.filter (fun l => !(stripWs l.content).isEmpty)).map
      (fun l => rstripWs l.content))

/-- `OutputBuffer._determine_group_type`: the `type_priority` table of
`_determine_group_type` (it ranks `PROGRESS` above `NORMAL`, unlike the
formatter's table). -/
def group_type_priority : MessageType → Nat
  | .ERROR => 100 | .WARNING => 80 | .SUCCESS => 60 | .INFO => 40
  | .CODE => 30 | .PROGRESS => 20 | .NORMAL => 10

def determine_group_type (lines : List OutputLine) : MessageType :=
  (lines.foldl
    (fun (st : Nat × MessageType) l =>
      if st.1 < group_type_priority l.line_type then
        (group_type_priority l.line_type, l.line_type)
      else st)
    (0, MessageType.NORMAL)).2

/-- `OutputBuffer._process_lines`: group, combine, drop blank groups, format,
mobile-optimise when more than three chunks. -/
def process_lines (maxLen : Nat) (lines : List OutputLine) : List MessageChunk :=
  (group_lines_intelligently lines).foldl
    (fun acc g =>
      let combined := combine_lines g
      if stripWs combined = [] then acc
      else
        let chunks := format_output maxLen combined (determine_group_type g)
        let chunks :=
          if 3 < chunks.length then optimize_for_mobile chunks else chunks
        acc ++ chunks)
    []

/-- The normalized text each non-blank group hands to the Chunker: the
`processed_text` that `format_output` derives (before splitting), one entry
per kept group in flush order. -/
def chunker_inputs (lines : List OutputLine) : List (List Char) :=
  (group_lines_intelligently lines).filterMap (fun g =>
    let combined := combine_lines g
    if stripWs combined = [] then none
    else some (process_claude_output combined))

/-- A line whose visible text the flush must carry: non-blank, and not
suppressed by the Normalizer once right-trimmed. -/
def keptLine (l : OutputLine) : Bool :=
  !(stripWs l.content).isEmpty && !should_suppress_line (rstripWs l.content)

/-- The visible text of an input line: its right-trimmed content with all
ANSI escape sequences removed. -/
def visibleText (l : OutputLine) : List Char := strip_all_ansi (rstripWs l.content)

/-- `needles` occur, in order and disjointly, as substrings of `hay`. -/
def InOrderSubstrings : List (List Char) → List Char → Prop
  | [], _ => True
  | n :: ns, hay => ∃ pre rest, hay = pre ++ n ++ rest ∧ InOrderSubstrings ns rest

/-- The Scenario-1 input `"\x1b[31mError: disk full\x1b[0m"`. -/
def c5content : List Char := "\x1b[31mError: disk full\x1b[0m".data

/-- The `OutputLine` built by `add_output` for the Scenario-1 input at time 0. -/
def c5line : OutputLine :=
  { content := c5content, timestamp := 0, session_id := [],
    line_type := classify_line_type c5content }

/-- A non-empty line that the Normalizer suppresses (its hyphen matches the
spinner class), refuting the no-line-dropped claim. -/
def c2cxLine : OutputLine :=
  { content := "a - b".data, timestamp := 0, session_id := [],
    line_type := classify_line_type ("a - b".data) }

/-- An ordinary line that survives the pipeline (C2 witness input). -/
def c2wLine : OutputLine :=
  { content := "all good".data, timestamp := 0, session_id := [],
    line_type := classify_line_type ("all good".data) }

/-- The chunk `format_output` produces for `"hello world"`. -/
def c1wChunk : MessageChunk :=
  { content := "`hello world`".data, message_type := MessageType.NORMAL,
    priority := 30, chunk_index := 0, total_chunks := 1, original_length := 11,
    fmt := RecFormat.inline_code }

/-! ## Session and SessionManager (`core/session.py`, `core/session_manager.py`)

The child process is modelled by its observable `poll()` result (`none`
while running, an exit code once dead); spawning a process and writing to
its stdin are OS effects whose boolean outcomes are oracle parameters,
mirroring the booleans the Python code branches on.  Wall-clock datetimes
are rationals. -/

/-- The observable state of a `subprocess.Popen`. -/
structure ProcHandle where
  poll : Option Int
deriving DecidableEq, Repr

/-- `core.session.Session`.  The Discord channel handle is omitted (never
consulted by the claimed operations); the `_process_controller` attribute
attached at creation is reduced to its presence, its process being
`claude_process`. -/
structure Session where
  id : String
  claude_process : Option ProcHandle
  status : String
  created_at : ℚ
  last_activity : ℚ
  command_history : List String
  output_buffer : List String
  working_directory : Option String
  has_controller : Bool
deriving DecidableEq, Repr

/-- `Session.is_active`. -/
def Session.is_active (s : Session) : Bool :=
  s.status == "active" &&
    (match s.claude_process with
     | some p => p.poll == (none : Option Int)
     | none => false)

/-- `Session.is_expired` (elapsed seconds strictly above the timeout, or the
session is already terminated). -/
def Session.is_expired (s : Session) (timeout_seconds now : ℚ) : Bool :=
  if s.status == "terminated" then true
  else decide (timeout_seconds < now - s.last_activity)

/-- `Session.add_command`: append, refresh activity, keep the last 100. -/
def Session.add_command (s : Session) (command : String) (now : ℚ) : Session :=
  let h := s.command_history ++ [command]
  let h := if 100 < h.length then h.drop (h.length - 100) else h
  { s with command_history := h, last_activity := now }

/-- The `SessionManager.sessions` dict, as an insertion-ordered key-value
list with unique keys. -/
abbrev Registry := List (String × Session)

/-- `self.sessions.get(session_id)`. -/
def regGet (m : Registry) (id : String) : Option Session :=
  (m.find? (fun e => e.1 == id)).map (fun e => e.2)

/-- `self.sessions[session_id] = session` (replace or append). -/
def regPut (m : Registry) (id : String) (s : Session) : Registry :=
  if (m.find? (fun e => e.1 == id)).isSome then
    m.map (fun e => if e.1 == id then (id, s) else e)
  else m ++ [(id, s)]

/-- `del self.sessions[session_id]` behind its `if session_id in sessions`
guard. -/
def regDel (m : Registry) (id : String) : Registry :=
  m.filter (fun e => !(e.1 == id))

/-- `SessionManager.generate_session_id`: the RNG is modelled as a stream of
6-character candidates; the loop returns the first one that is not a current
key (`none` only if the finite stream runs out — the real loop keeps
drawing). -/
def generate_session_id (cands : List String) (m : Registry) : Option String :=
  cands.find? (fun c => (regGet m c).isNone)

/-- `SessionManager.create_session`.  `spawnOk` is the boolean outcome of
`ProcessController.start_process`; on success the stored process handle is
running and the session is registered with its bound controller. -/
def create_session (m : Registry) (cands : List String) (wd : String)
    (spawnOk : Bool) (now : ℚ) : Option Session × Registry :=
  match generate_session_id cands m with
  | none => (none, m)
  | some sid =>
    if spawnOk then
      let s : Session :=
        { id := sid, claude_process := some { poll := none },
          status := "active", created_at := now, last_activity := now,
          command_history := [], output_buffer := [],
          working_directory := some wd, has_controller := true }
      (some s, regPut m sid s)
    else (none, m)

/-- `SessionManager.send_command`.  `sendOk` is the boolean outcome of
`ProcessController.send_input` (false when stdin is closed or the child has
exited). -/
def send_command (m : Registry) (id command : String) (sendOk : Bool)
    (now : ℚ) : Bool × Registry :=
  match regGet m id with
  | none => (false, m)
  | some s =>
    if s.is_active = false then (false, m)
    else if s.has_controller = false then (false, m)
    else if sendOk then (true, regPut m id (s.add_command command now))
    else (false, m)

/-- `SessionManager.terminate_session`: unknown id is a no-op returning
false; otherwise the process is terminated (an OS effect that always
succeeds via the forced-kill backstop), the session object is marked
terminated (observable only through the best-effort callback once removed)
and the entry is deleted. -/
def terminate_session (m : Registry) (id : String) (_now : ℚ) : Bool × Registry :=
  match regGet m id with
  | none => (false, m)
  | some _ => (true, regDel m id)

/-- `SessionManager._cleanup_expired_sessions`: collect the expired ids
under the lock, then terminate each through `terminate_session`. -/
def cleanup_expired_sessions (m : Registry) (timeout now : ℚ) : Registry :=
  let expired := (m.filter (fun e => e.2.is_expired timeout now)).map (fun e => e.1)
  expired.foldl (fun acc sid => (terminate_session acc sid now).2) m

/-- A dead session under id `"S1"` (exit code 0, still marked active) and a
live one under `"S2"`: concrete registries for the C7/C8/C10 witnesses. -/
def deadSession : Session :=
  { id := "S1", claude_process := some { poll := some 0 }, status := "active",
    created_at := 0, last_activity := 0, command_history := ["old"],
    output_buffer := [], working_directory := none, has_controller := true }

def liveSession : Session :=
  { id := "S2", claude_process := some { poll := none }, status := "active",
    created_at := 0, last_activity := 0, command_history := [],
    output_buffer := [], working_directory := none, has_controller := true }

def termSession : Session :=
  { id := "S3", claude_process := none, status := "terminated",
    created_at := 0, last_activity := 100, command_history := [],
    output_buffer := [], working_directory := none, has_controller := false }

/-! ## Lemmas: every ANSI matcher requires a leading ESC -/

theorem matchCsi_ne_esc : ∀ c cs, c ≠ ESC → matchCsi (c :: cs) = none := by
  intro c cs h; cases cs <;> simp [matchCsi, h]

theorem matchOsc_ne_esc : ∀ c cs, c ≠ ESC → matchOsc (c :: cs) = none := by
  intro c cs h; cases cs <;> simp [matchOsc, h]

theorem matchSingleChar_ne_esc : ∀ c cs, c ≠ ESC → matchSingleChar (c :: cs) = none := by
  intro c cs h; cases cs <;> simp [matchSingleChar, h]

theorem matchPrivateMode_ne_esc : ∀ c cs, c ≠ ESC → matchPrivateMode (c :: cs) = none := by
  intro c cs h
  cases cs with
  | nil => rfl
  | cons b rest => cases rest <;> simp [matchPrivateMode, h]

theorem matchStringSeq_ne_esc (intro : Char) :
    ∀ c cs, c ≠ ESC → matchStringSeq intro (c :: cs) = none := by
  intro c cs h; cases cs <;> simp [matchStringSeq, h]

theorem matchStTerm_ne_esc : ∀ c cs, c ≠ ESC → matchStTerm (c :: cs) = none := by
  intro c cs h; cases cs <;> simp [matchStTerm, h]

theorem matchFinalEsc_ne_esc : ∀ c cs, c ≠ ESC → matchFinalEsc (c :: cs) = none := by
  intro c cs h; cases cs <;> simp [matchFinalEsc, h]

/-! ## `re.sub` is the identity where no match can start -/

theorem subAt_id_of_noEsc (m : List Char → Option Nat)
    (hm : ∀ c cs, c ≠ ESC → m (c :: cs) = none) :
    ∀ l : List Char, ESC ∉ l → subAt m l.length l = l := by
  intro l
  induction l with
  | nil => intro _; rfl
  | cons c cs ih =>
    intro h
    have hc : c ≠ ESC := fun e => h (e ▸ List.mem_cons_self c cs)
    have hrec := ih (fun hmem => h (List.mem_cons_of_mem c hmem))
    simp [subAt, hm c cs hc, hrec]

theorem applySub_id_of_noEsc (m : List Char → Option Nat)
    (hm : ∀ c cs, c ≠ ESC → m (c :: cs) = none)
    (l : List Char) (h : ESC ∉ l) : applySub m l = l :=
  subAt_id_of_noEsc m hm l h

theorem applySub_id_truncated (m : List Char → Option Nat)
    (hm : ∀ c cs, c ≠ ESC → m (c :: cs) = none)
    (s r : List Char) (hs : ESC ∉ s) (hr : ESC ∉ r)
    (hfail : m (ESC :: r) = none) :
    applySub m (s ++ ESC :: r) = s ++ ESC :: r := by
  unfold applySub
  induction s with
  | nil =>
    have : subAt m r.length r = r := subAt_id_of_noEsc m hm r hr
    simp [subAt, hfail, this]
  | cons c cs ih =>
    have hc : c ≠ ESC := fun e => hs (e ▸ List.mem_cons_self c cs)
    have hcs : ESC ∉ cs := fun hmem => hs (List.mem_cons_of_mem c hmem)
    have hrec := ih hcs
    show subAt m ((cs ++ ESC :: r).length + 1) (c :: (cs ++ ESC :: r)) =
      c :: (cs ++ ESC :: r)
    simp only [subAt, hm c (cs ++ ESC :: r) hc]
    rw [hrec]

theorem strip_all_ansi_id_of_noEsc (l : List Char) (h : ESC ∉ l) :
    strip_all_ansi l = l := by
  by_cases hl : l = []
  · simp [strip_all_ansi, hl]
  · simp only [strip_all_ansi, if_neg hl]
    rw [applySub_id_of_noEsc matchCsi matchCsi_ne_esc l h,
        applySub_id_of_noEsc matchOsc matchOsc_ne_esc l h,
        applySub_id_of_noEsc matchSingleChar matchSingleChar_ne_esc l h,
        applySub_id_of_noEsc matchPrivateMode matchPrivateMode_ne_esc l h,
        applySub_id_of_noEsc (matchStringSeq 'P') (matchStringSeq_ne_esc 'P') l h,
        applySub_id_of_noEsc (matchStringSeq '_') (matchStringSeq_ne_esc '_') l h,
        applySub_id_of_noEsc (matchStringSeq '^') (matchStringSeq_ne_esc '^') l h,
        applySub_id_of_noEsc matchStTerm matchStTerm_ne_esc l h,
        applySub_id_of_noEsc matchFinalEsc matchFinalEsc_ne_esc l h]

theorem strip_all_ansi_id_truncated (s r : List Char) (hs : ESC ∉ s) (hr : ESC ∉ r)
    (hfail : ansiMatchersFailAt (ESC :: r) = true) :
    strip_all_ansi (s ++ ESC :: r) = s ++ ESC :: r := by
  simp only [ansiMatchersFailAt, Bool.and_eq_true, Option.isNone_iff_eq_none] at hfail
  obtain ⟨⟨⟨⟨⟨⟨⟨⟨h1, h2⟩, h3⟩, h4⟩, h5⟩, h6⟩, h7⟩, h8⟩, h9⟩ := hfail
  have hne : s ++ ESC :: r ≠ [] := by
    intro e; exact absurd (List.append_eq_nil.mp e).2 (by simp)
  simp only [strip_all_ansi, if_neg hne]
  rw [applySub_id_truncated matchCsi matchCsi_ne_esc s r hs hr h1,
      applySub_id_truncated matchOsc matchOsc_ne_esc s r hs hr h2,
      applySub_id_truncated matchSingleChar matchSingleChar_ne_esc s r hs hr h3,
      applySub_id_truncated matchPrivateMode matchPrivateMode_ne_esc s r hs hr h4,
      applySub_id_truncated (matchStringSeq 'P') (matchStringSeq_ne_esc 'P') s r hs hr h5,
      applySub_id_truncated (matchStringSeq '_') (matchStringSeq_ne_esc '_') s r hs hr h6,
      applySub_id_truncated (matchStringSeq '^') (matchStringSeq_ne_esc '^') s r hs hr h7,
      applySub_id_truncated matchStTerm matchStTerm_ne_esc s r hs hr h8,
      applySub_id_truncated matchFinalEsc matchFinalEsc_ne_esc s r hs hr h9]

theorem findIdx_esc_after (u w : List Char) (hu : ESC ∉ u) :
    (u ++ ESC :: w).findIdx? (fun c => c = ESC) = some u.length := by
  induction u with
  | nil => simp [List.findIdx?_cons]
  | cons c cs ih =>
    have hc : c ≠ ESC := fun e => hu (e ▸ List.mem_cons_self c cs)
    have hcs : ESC ∉ cs := fun hmem => hu (List.mem_cons_of_mem c hmem)
    simp [List.findIdx?_cons, hc, ih hcs]

theorem cleanup_incomplete_after (s r : List Char) (hs : ESC ∉ s) (hr : ESC ∉ r) :
    cleanup_incomplete_ansi (s ++ ESC :: r) = s := by
  have hrev : (s ++ ESC :: r).reverse = r.reverse ++ ESC :: s.reverse := by
    simp
  have hfind : (s ++ ESC :: r).reverse.findIdx? (fun c => c = ESC) =
      some r.reverse.length := by
    rw [hrev]; exact findIdx_esc_after r.reverse s.reverse (by simpa using hr)
  have hlen : (s ++ ESC :: r).length - 1 - r.reverse.length = s.length := by
    simp [List.length_append]
  unfold cleanup_incomplete_ansi
  rw [hfind]
  show (s ++ ESC :: r).take ((s ++ ESC :: r).length - 1 - r.reverse.length) = s
  rw [hlen]
  exact List.take_left s (ESC :: r)

/-! ## Claims C3 and C4 -/

/-- **C3, counterexample.**  The claim `strip(strip(x)) == strip(x)` for every
input `x` fails on `stripCx = "\x1B\x1BA0m[0m"`: the first pass removes the
inner `ESC A 0 m` and thereby assembles a new complete CSI sequence
`ESC [ 0 m`, which only a second pass removes. -/
theorem c3_strip_not_idempotent_cx :
    strip_all_ansi (strip_all_ansi stripCx) ≠ strip_all_ansi stripCx := by decide

/-- **C3, amended.**  `strip_all_ansi` is idempotent on every input whose
stripped form contains no remaining ESC byte (in particular on every ESC-free
input); a single pass can leave a newly assembled escape sequence behind, so
idempotence does not hold unconditionally. -/
theorem c3_strip_idempotent_of_clean (x : List Char)
    (h : ESC ∉ strip_all_ansi x) :
    strip_all_ansi (strip_all_ansi x) = strip_all_ansi x :=
  strip_all_ansi_id_of_noEsc _ h

/-- Witness for `c3_strip_idempotent_of_clean` at `"\x1B[31mok"`. -/
theorem c3_strip_idempotent_of_clean_witness :
    ESC ∉ strip_all_ansi stripWitnessInput ∧
    strip_all_ansi (strip_all_ansi stripWitnessInput) =
      strip_all_ansi stripWitnessInput :=
  ⟨by decide, c3_strip_idempotent_of_clean stripWitnessInput (by decide)⟩

/-- **C4, counterexample.**  The claim says the strip operation discards a
sequence truncated at input end so that no partial-escape bytes remain; on
`"abc\x1B[31"` the `strip_all_ansi` output still contains the ESC byte. -/
theorem c4_strip_keeps_truncated_cx : ESC ∈ strip_all_ansi truncatedCx := by decide

/-- **C4, amended.**  For an input made of an ESC-free prefix followed by a
trailing sequence that no recognised grammar matches (a sequence truncated at
input end), `strip_all_ansi` removes nothing — it leaves the truncated bytes
in place and alters no non-escape character — and the separate
`cleanup_incomplete_ansi` operation then discards the truncated sequence,
returning exactly the prefix. -/
theorem c4_truncated_escape (s r : List Char) (hs : ESC ∉ s) (hr : ESC ∉ r)
    (hfail : ansiMatchersFailAt (ESC :: r) = true) :
    strip_all_ansi (s ++ ESC :: r) = s ++ ESC :: r ∧
    cleanup_incomplete_ansi (strip_all_ansi (s ++ ESC :: r)) = s := by
  have h1 := strip_all_ansi_id_truncated s r hs hr hfail
  exact ⟨h1, by rw [h1]; exact cleanup_incomplete_after s r hs hr⟩

/-- Witness for `c4_truncated_escape` at prefix `"abc"` and truncated tail
`"\x1B[31"`. -/
theorem c4_truncated_escape_witness :
    (ESC ∉ ('a' :: 'b' :: 'c' :: [])) ∧ (ESC ∉ ['[', '3', '1']) ∧
    ansiMatchersFailAt (ESC :: ['[', '3', '1']) = true ∧
    (strip_all_ansi (('a' :: 'b' :: 'c' :: []) ++ ESC :: ['[', '3', '1']) =
        ('a' :: 'b' :: 'c' :: []) ++ ESC :: ['[', '3', '1'] ∧
      cleanup_incomplete_ansi
          (strip_all_ansi (('a' :: 'b' :: 'c' :: []) ++ ESC :: ['[', '3', '1'])) =
        ('a' :: 'b' :: 'c' :: [])) :=
  ⟨by decide, by decide, by decide,
    c4_truncated_escape ('a' :: 'b' :: 'c' :: []) ['[', '3', '1']
      (by decide) (by decide) (by decide)⟩

/-! ## Claim C1: chunk length against the transport limit -/

theorem lstripWs_length_le (l : List Char) : (lstripWs l).length ≤ l.length := by
  induction l with
  | nil => simp [lstripWs]
  | cons c cs ih =>
    simp only [lstripWs]
    split
    · exact le_trans ih (by simp)
    · simp

theorem rstripWs_length_le (l : List Char) : (rstripWs l).length ≤ l.length := by
  unfold rstripWs
  simpa using lstripWs_length_le l.reverse

theorem stripWs_length_le (l : List Char) : (stripWs l).length ≤ l.length :=
  le_trans (rstripWs_length_le (lstripWs l)) (lstripWs_length_le l)

theorem detect_language_length_le (t : List Char) : (detect_language t).length ≤ 10 := by
  unfold detect_language
  split_ifs <;> decide

theorem chunkEvery_mem_length_le (n : Nat) (hn : 1 ≤ n) :
    ∀ fuel l, l.length ≤ fuel → ∀ c ∈ chunkEvery n fuel l, c.length ≤ n := by
  intro fuel
  induction fuel with
  | zero =>
    intro l hl c hc
    have hln : l = [] := List.length_eq_zero.mp (Nat.le_zero.mp hl)
    subst hln
    simp [chunkEvery] at hc
  | succ f ih =>
    intro l hl c hc
    cases l with
    | nil => simp [chunkEvery] at hc
    | cons a as =>
      have hn0 : ¬ n = 0 := by omega
      simp only [chunkEvery, if_neg hn0] at hc
      rcases List.mem_cons.mp hc with h | h
      · subst h; simpa using List.length_take_le n (a :: as)
      · refine ih ((a :: as).drop n) ?_ c h
        have : (a :: as).length ≤ f + 1 := hl
        simp only [List.length_drop]
        simp only [List.length_cons] at this
        omega

theorem splitStep_bound (maxLen : Nat) (hml : 1 ≤ maxLen) (sep : List Char)
    (st : List (List Char) × List Char) (part : List Char)
    (h1 : ∀ c ∈ st.1, c.length ≤ maxLen) (h2 : st.2.length ≤ maxLen) :
    (∀ c ∈ (splitStep maxLen sep st part).1, c.length ≤ maxLen) ∧
      (splitStep maxLen sep st part).2.length ≤ maxLen := by
  have hchunk : ∀ c ∈ chunkEvery maxLen part.length part, c.length ≤ maxLen :=
    fun c h => chunkEvery_mem_length_le maxLen hml part.length part le_rfl c h
  simp only [splitStep]
  by_cases hcur : st.2 = []
  · simp only [hcur, eq_self_iff_true, if_true, List.nil_append]
    by_cases htest : part.length ≤ maxLen
    · rw [if_pos htest]
      exact ⟨h1, htest⟩
    · rw [if_neg htest, if_pos (by omega : maxLen < part.length)]
      refine ⟨?_, by simp⟩
      intro c hc
      rcases List.mem_append.mp hc with h | h
      · exact h1 c h
      · exact hchunk c h
  · simp only [if_neg hcur]
    by_cases htest : (st.2 ++ sep ++ part).length ≤ maxLen
    · rw [if_pos htest]
      exact ⟨h1, htest⟩
    · rw [if_neg htest]
      have hmem2 : ∀ c ∈ st.1 ++ [st.2], c.length ≤ maxLen := by
        intro c hc
        rcases List.mem_append.mp hc with h | h
        · exact h1 c h
        · rw [List.mem_singleton.mp h]; exact h2
      by_cases hover : maxLen < part.length
      · rw [if_pos hover]
        refine ⟨?_, by simp⟩
        intro c hc
        rcases List.mem_append.mp hc with h | h
        · exact hmem2 c h
        · exact hchunk c h
      · rw [if_neg hover]
        refine ⟨hmem2, ?_⟩
        show part.length ≤ maxLen
        omega

theorem foldl_splitStep_bound (maxLen : Nat) (hml : 1 ≤ maxLen) (sep : List Char) :
    ∀ (parts : List (List Char)) (st : List (List Char) × List Char),
      (∀ c ∈ st.1, c.length ≤ maxLen) → st.2.length ≤ maxLen →
      (∀ c ∈ (parts.foldl (splitStep maxLen sep) st).1, c.length ≤ maxLen) ∧
        (parts.foldl (splitStep maxLen sep) st).2.length ≤ maxLen := by
  intro parts
  induction parts with
  | nil => intro st h1 h2; exact ⟨h1, h2⟩
  | cons p ps ih =>
    intro st h1 h2
    have hstep := splitStep_bound maxLen hml sep st p h1 h2
    exact ih _ hstep.1 hstep.2

theorem apply_split_strategy_bound (maxLen : Nat) (hml : 1 ≤ maxLen)
    (strat : SplitStrategy) (text : List Char) :
    ∀ c ∈ apply_split_strategy maxLen strat text, c.length ≤ maxLen := by
  intro c hc
  have hb := foldl_splitStep_bound maxLen hml (strategySep strat)
    (strategyParts strat text) ([], []) (by simp) (by simp)
  simp only [apply_split_strategy] at hc
  split at hc
  · exact hb.1 c hc
  · rcases List.mem_append.mp hc with h | h
    · exact hb.1 c h
    · rw [List.mem_singleton.mp h]; exact hb.2

theorem split_content_bound (maxLen : Nat) (hml : 1 ≤ maxLen) (text : List Char)
    (a : ContentAnalysis) (ha : a.length = text.length) :
    ∀ c ∈ split_content maxLen text a, c.length ≤ maxLen := by
  intro c hc
  simp only [split_content] at hc
  split at hc
  · next hle => rw [List.mem_singleton.mp hc]; omega
  · exact apply_split_strategy_bound maxLen hml _ text c hc

theorem format_chunk_content_le (maxLen : Nat) (content : List Char)
    (mt : MessageType) (a : ContentAnalysis) (idx total : Nat)
    (hc : content.length ≤ maxLen) :
    (format_chunk maxLen content mt a idx total).content.length ≤ maxLen + 18 := by
  have hfmt : (match a.recommended_format with
      | RecFormat.code_block =>
          "```".data ++ detect_language content ++
            '\n' :: (stripWs content ++ "\n```".data)
      | RecFormat.inline_code => '`' :: (stripWs content ++ ['`'])
      | _ => content).length ≤ maxLen + 18 := by
    have hlang := detect_language_length_le content
    have hstrip := stripWs_length_le content
    have e1 : ("```".data).length = 3 := by decide
    have e2 : ("\n```".data).length = 4 := by decide
    cases a.recommended_format <;>
      simp only [List.length_append, List.length_cons, List.length_nil, e1, e2] <;>
      omega
  simp only [format_chunk]
  split
  · next hhead => exact le_trans hhead.2 (by omega)
  · next hhead => exact hfmt

theorem withIdx_snd_mem : ∀ (i : Nat) (l : List (List Char)) (p : Nat × List Char),
    p ∈ withIdx i l → p.2 ∈ l := by
  intro i l
  induction l generalizing i with
  | nil => intro p hp; simp [withIdx] at hp
  | cons x xs ih =>
    intro p hp
    simp only [withIdx] at hp
    rcases List.mem_cons.mp hp with h | h
    · subst h; simp
    · exact List.mem_cons_of_mem x (ih (i + 1) p h)

/-- **C1.**  Every `MessageChunk` returned by `DiscordFormatter.format_output`
(at its configured working limit of 1900) has content of length at most the
configured transport limit `MAX_MESSAGE_LENGTH = 2000`, including after
decoration: pre-decoration chunks are at most 1900 characters, code-fence or
inline-code wrapping adds at most 18 characters, and the part-N-of-M header
is only attached when the decorated chunk still fits in 1900. -/
theorem c1_chunk_length_le_transport (text : List Char) (mt : MessageType)
    (c : MessageChunk) (hc : c ∈ format_output DEFAULT_MAX_LENGTH text mt) :
    c.content.length ≤ MAX_MESSAGE_LENGTH := by
  simp only [format_output] at hc
  split at hc
  · simp at hc
  · obtain ⟨p, hp, rfl⟩ := List.mem_map.mp hc
    have hmem := withIdx_snd_mem 0 _ p hp
    have hbound := split_content_bound DEFAULT_MAX_LENGTH (by decide)
      (process_claude_output text)
      (analyze_content (process_claude_output text) mt) rfl p.2 hmem
    have hfc := format_chunk_content_le DEFAULT_MAX_LENGTH p.2 mt
      (analyze_content (process_claude_output text) mt) p.1
      ((split_content DEFAULT_MAX_LENGTH (process_claude_output text)
        (analyze_content (process_claude_output text) mt)).length) hbound
    exact le_trans hfc (by decide)

/-- Witness for `c1_chunk_length_le_transport` on the input `"hello world"`. -/
theorem c1_chunk_length_witness :
    c1wChunk ∈ format_output DEFAULT_MAX_LENGTH ("hello world".data)
      MessageType.NORMAL ∧
    c1wChunk.content.length ≤ MAX_MESSAGE_LENGTH :=
  ⟨by decide,
    c1_chunk_length_le_transport ("hello world".data) MessageType.NORMAL c1wChunk
      (by decide)⟩

/-! ## Claim C5: the red "Error: disk full" scenario -/

/-- **C5, counterexample.**  The claim says the flushed chunk's content is
exactly `"Error: disk full"`; the pipeline instead emits the cleaned text
wrapped in a diff code fence. -/
theorem c5_content_not_bare_cx :
    (process_lines DEFAULT_MAX_LENGTH [c5line]).map MessageChunk.content ≠
      ["Error: disk full".data] := by decide

/-- **C5, amended.**  `add_output("\x1b[31mError: disk full\x1b[0m")` followed
by a flush emits exactly one chunk, of type error, whose content is the
ANSI-stripped text wrapped in a Discord diff code fence
(`"```diff\n- Error: disk full\n```"`), with no residual escape byte. -/
theorem c5_error_scenario :
    add_output [] c5content MessageType.NORMAL 0 = some c5line ∧
    (process_lines DEFAULT_MAX_LENGTH [c5line]).map
        (fun c => (c.content, c.message_type)) =
      [("```diff\n- Error: disk full\n```".data, MessageType.ERROR)] ∧
    ESC ∉ joinAll ((process_lines DEFAULT_MAX_LENGTH [c5line]).map
      MessageChunk.content) := by
  exact ⟨by decide, by decide, by decide⟩

/-! ## Claim C2: order preservation of visible text through a flush -/

theorem inOrder_prepend (ns : List (List Char)) (x h : List Char)
    (hh : InOrderSubstrings ns h) : InOrderSubstrings ns (x ++ h) := by
  cases ns with
  | nil => trivial
  | cons n ns =>
    obtain ⟨pre, rest, heq, htail⟩ := hh
    exact ⟨x ++ pre, rest, by simp [heq], htail⟩

theorem inOrder_concat (as bs : List (List Char)) (h1 h2 : List Char)
    (ha : InOrderSubstrings as h1) (hb : InOrderSubstrings bs h2) :
    InOrderSubstrings (as ++ bs) (h1 ++ h2) := by
  induction as generalizing h1 with
  | nil => exact inOrder_prepend bs h1 h2 hb
  | cons a as ih =>
    obtain ⟨pre, rest, heq, htail⟩ := ha
    exact ⟨pre, rest ++ h2, by simp [heq], ih rest htail⟩

theorem groupGo_join (rest : List OutputLine) :
    ∀ cur, joinAll (groupGo cur rest) = cur.reverse ++ rest := by
  induction rest with
  | nil => intro cur; simp [groupGo, joinAll]
  | cons l ls ih =>
    intro cur
    simp only [groupGo]
    split
    · rw [ih (l :: cur)]; simp
    · simp only [joinAll, ih [l]]; simp

theorem group_lines_join (lines : List OutputLine) :
    joinAll (group_lines_intelligently lines) = lines := by
  cases lines with
  | nil => rfl
  | cons l ls => simpa using groupGo_join ls [l]

theorem lstripWs_decomp (l : List Char) :
    ∃ pre, l = pre ++ lstripWs l ∧ ∀ c ∈ pre, isPyWs c = true := by
  induction l with
  | nil => exact ⟨[], rfl, by simp⟩
  | cons c cs ih =>
    by_cases h : isPyWs c
    · obtain ⟨pre, heq, hws⟩ := ih
      refine ⟨c :: pre, ?_, ?_⟩
      · simp only [lstripWs, if_pos h, List.cons_append]
        exact congrArg (c :: ·) heq
      · intro d hd
        rcases List.mem_cons.mp hd with h2 | h2
        · exact h2 ▸ h
        · exact hws d h2
    · refine ⟨[], ?_, by simp⟩
      simp [lstripWs, h]

theorem mem_lstripWs (l : List Char) (c : Char) (hc : c ∈ lstripWs l) : c ∈ l := by
  obtain ⟨pre, heq, _⟩ := lstripWs_decomp l
  rw [heq]
  exact List.mem_append_right pre hc

theorem mem_rstripWs (l : List Char) (c : Char) (hc : c ∈ rstripWs l) : c ∈ l := by
  unfold rstripWs at hc
  rw [List.mem_reverse] at hc
  simpa using mem_lstripWs l.reverse c hc

theorem lstripWs_eq_nil_iff (l : List Char) :
    lstripWs l = [] ↔ ∀ c ∈ l, isPyWs c = true := by
  induction l with
  | nil => simp [lstripWs]
  | cons c cs ih =>
    by_cases h : isPyWs c
    · simp only [lstripWs, if_pos h]
      rw [ih]
      constructor
      · intro hall d hd
        rcases List.mem_cons.mp hd with h2 | h2
        · exact h2 ▸ h
        · exact hall d h2
      · intro hall d hd
        exact hall d (List.mem_cons_of_mem c hd)
    · simp only [lstripWs, if_neg h]
      constructor
      · intro hx; exact absurd hx (by simp)
      · intro hall; exact absurd (hall c (List.mem_cons_self c cs)) (by simp [h])

theorem rstripWs_eq_nil_iff (l : List Char) :
    rstripWs l = [] ↔ ∀ c ∈ l, isPyWs c = true := by
  unfold rstripWs
  rw [List.reverse_eq_nil_iff, lstripWs_eq_nil_iff]
  constructor
  · intro hall c hc; exact hall c (List.mem_reverse.mpr hc)
  · intro hall c hc; exact hall c (List.mem_reverse.mp hc)

theorem stripWs_eq_nil_iff (l : List Char) :
    stripWs l = [] ↔ ∀ c ∈ l, isPyWs c = true := by
  unfold stripWs
  rw [rstripWs_eq_nil_iff]
  constructor
  · intro hall c hc
    by_contra hws
    obtain ⟨pre, heq, hpre⟩ := lstripWs_decomp l
    rcases List.mem_append.mp (heq ▸ hc) with h2 | h2
    · exact hws (hpre c h2)
    · exact hws (hall c h2)
  · intro hall c hc
    exact hall c (mem_lstripWs l c hc)

theorem mem_joinWith (sep : List Char) :
    ∀ (parts : List (List Char)) (p : List Char), p ∈ parts →
      ∀ c ∈ p, c ∈ joinWith sep parts := by
  intro parts
  induction parts with
  | nil => intro p hp; simp at hp
  | cons x xs ih =>
    intro p hp c hc
    cases xs with
    | nil =>
      rw [List.mem_singleton.mp hp] at hc
      simpa [joinWith] using hc
    | cons y ys =>
      rcases List.mem_cons.mp hp with h | h
      · subst h
        simp only [joinWith]
        exact List.mem_append_left _ (List.mem_append_left _ hc)
      · simp only [joinWith]
        exact List.mem_append_right _ (ih p h c hc)

theorem mem_lstripWs_of_not_ws (l : List Char) (c : Char) (hc : c ∈ l)
    (hw : isPyWs c = false) : c ∈ lstripWs l := by
  obtain ⟨pre, heq, hpre⟩ := lstripWs_decomp l
  rcases List.mem_append.mp (heq ▸ hc) with h | h
  · exact absurd (hpre c h) (by simp [hw])
  · exact h

theorem mem_rstripWs_of_not_ws (l : List Char) (c : Char) (hc : c ∈ l)
    (hw : isPyWs c = false) : c ∈ rstripWs l := by
  unfold rstripWs
  rw [List.mem_reverse]
  exact mem_lstripWs_of_not_ws _ c (List.mem_reverse.mpr hc) hw

theorem kept_of_group_dropped (g : List OutputLine)
    (hdrop : stripWs (combine_lines g) = []) : g.filter keptLine = [] := by
  rw [List.filter_eq_nil]
  intro l hl hkept
  have hnb : stripWs l.content ≠ [] := by
    intro h
    simp [keptLine, h] at hkept
  have hex : ∃ c ∈ l.content, isPyWs c = false := by
    by_contra hall
    push_neg at hall
    refine hnb ((stripWs_eq_nil_iff _).mpr ?_)
    intro c hc
    simpa using hall c hc
  obtain ⟨c, hcmem, hcnw⟩ := hex
  have hcr : c ∈ rstripWs l.content := mem_rstripWs_of_not_ws _ c hcmem hcnw
  have hcj : c ∈ combine_lines g := by
    unfold combine_lines
    refine mem_joinWith ['\n'] _ (rstripWs l.content) ?_ c hcr
    exact List.mem_map_of_mem _ (List.mem_filter.mpr ⟨hl, by simpa using hnb⟩)
  have := (stripWs_eq_nil_iff _).mp hdrop c hcj
  rw [this] at hcnw
  exact absurd hcnw (by simp)

theorem splitOnChar_no_sep (sep : Char) :
    ∀ x : List Char, sep ∉ x → splitOnChar sep x = [x] := by
  intro x
  induction x with
  | nil => intro _; rfl
  | cons c cs ih =>
    intro h
    have hc : ¬ c = sep := fun e => h (e ▸ List.mem_cons_self c cs)
    have hcs : sep ∉ cs := fun hm => h (List.mem_cons_of_mem c hm)
    simp only [splitOnChar, if_neg hc, ih hcs]

theorem splitOnChar_append_sep (sep : Char) (x rest : List Char) (hx : sep ∉ x) :
    splitOnChar sep (x ++ sep :: rest) = x :: splitOnChar sep rest := by
  induction x with
  | nil => simp [splitOnChar]
  | cons c cs ih =>
    have hc : ¬ c = sep := fun e => hx (e ▸ List.mem_cons_self c cs)
    have hcs : sep ∉ cs := fun hm => hx (List.mem_cons_of_mem c hm)
    have hrec := ih hcs
    simp only [List.cons_append, splitOnChar, if_neg hc]
    have e : cs.append (sep :: rest) = cs ++ sep :: rest := rfl
    rw [e, hrec]

theorem splitOnChar_joinWith (sep : Char) :
    ∀ parts : List (List Char), parts ≠ [] → (∀ p ∈ parts, sep ∉ p) →
      splitOnChar sep (joinWith [sep] parts) = parts := by
  intro parts
  induction parts with
  | nil => intro h; exact absurd rfl h
  | cons x xs ih =>
    intro _ hall
    cases xs with
    | nil =>
      simp only [joinWith]
      exact splitOnChar_no_sep sep x (hall x (List.mem_cons_self x []))
    | cons y ys =>
      have hx : sep ∉ x := hall x (List.mem_cons_self x (y :: ys))
      have hys : ∀ p ∈ y :: ys, sep ∉ p :=
        fun p hp => hall p (List.mem_cons_of_mem x hp)
      have : joinWith [sep] (x :: y :: ys) = x ++ sep :: joinWith [sep] (y :: ys) := by
        simp [joinWith]
      rw [this, splitOnChar_append_sep sep x _ hx, ih (by simp) hys]

theorem process_on_combined (parts : List (List Char)) (hne : parts ≠ [])
    (hjne : joinWith ['\n'] parts ≠ [])
    (hnl : ∀ p ∈ parts, '\n' ∉ p) :
    process_claude_output (joinWith ['\n'] parts) =
      joinWith ['\n']
        ((parts.filter (fun l => !should_suppress_line l)).map
          convert_ansi_to_discord) := by
  unfold process_claude_output
  rw [if_neg hjne, splitOnChar_joinWith '\n' parts hne hnl]

theorem convert_expansion (p : List Char) :
    ∃ pre post, convert_ansi_to_discord p = pre ++ strip_all_ansi p ++ post := by
  unfold convert_ansi_to_discord
  by_cases hp : p = []
  · refine ⟨[], [], ?_⟩
    rw [if_pos hp, hp]
    rfl
  · rw [if_neg hp]
    cases hst : extract_semantic_type p with
    | none => exact ⟨[], [], by simp⟩
    | some t =>
      cases t with
      | error => exact ⟨"```diff\n- ".data, "\n```".data, rfl⟩
      | success => exact ⟨"```diff\n+ ".data, "\n```".data, rfl⟩
      | warning => exact ⟨"```fix\n".data, "\n```".data, rfl⟩
      | file_created => exact ⟨"```yaml\n".data, "\n```".data, rfl⟩
      | file_modified => exact ⟨"```yaml\n".data, "\n```".data, rfl⟩
      | file_deleted => exact ⟨"```yaml\n".data, "\n```".data, rfl⟩
      | command_start => exact ⟨"```bash\n".data, "\n```".data, rfl⟩
      | command_complete => exact ⟨"```bash\n".data, "\n```".data, rfl⟩
      | thinking => exact ⟨['*'], ['*'], rfl⟩
      | working => exact ⟨['*'], ['*'], rfl⟩
      | progress_bar => exact ⟨[], [], by simp [format_semantic_content]⟩
      | percentage => exact ⟨[], [], by simp [format_semantic_content]⟩
      | spinner => exact ⟨[], [], by simp [format_semantic_content]⟩

theorem inOrder_map_expansion (conv f : List Char → List Char)
    (hexp : ∀ p, ∃ pre post, conv p = pre ++ f p ++ post) (sep : List Char) :
    ∀ parts : List (List Char),
      InOrderSubstrings (parts.map f) (joinWith sep (parts.map conv)) := by
  intro parts
  induction parts with
  | nil => trivial
  | cons p ps ih =>
    obtain ⟨pre, post, hc⟩ := hexp p
    cases ps with
    | nil =>
      exact ⟨pre, post, by simp [joinWith, hc], trivial⟩
    | cons q qs =>
      refine ⟨pre, post ++ sep ++ joinWith sep ((q :: qs).map conv), ?_, ?_⟩
      · simp only [List.map_cons, joinWith, hc]
        simp [List.append_assoc]
      · exact inOrder_prepend _ (post ++ sep) _ ih

theorem group_chunker_contains (g : List OutputLine)
    (hnl : ∀ l ∈ g, '\n' ∉ l.content)
    (hkeep : stripWs (combine_lines g) ≠ []) :
    InOrderSubstrings ((g.filter keptLine).map visibleText)
      (process_claude_output (combine_lines g)) := by
  set nonblank : OutputLine → Bool := fun l => !(stripWs l.content).isEmpty with hnbdef
  set parts : List (List Char) :=
    (g.filter nonblank).map (fun l => rstripWs l.content) with hpartsdef
  have hcomb : combine_lines g = joinWith ['\n'] parts := rfl
  have hjne : joinWith ['\n'] parts ≠ [] := by
    rw [← hcomb]
    intro h
    exact hkeep (by rw [h]; rfl)
  have hne : parts ≠ [] := by
    intro h
    rw [h] at hjne
    exact hjne rfl
  have hpnl : ∀ p ∈ parts, '\n' ∉ p := by
    intro p hp
    rw [hpartsdef] at hp
    obtain ⟨l, hlmem, rfl⟩ := List.mem_map.mp hp
    intro hnlmem
    exact hnl l (List.mem_filter.mp hlmem).1 (mem_rstripWs _ _ hnlmem)
  rw [hcomb, process_on_combined parts hne hjne hpnl]
  have hneedles : (g.filter keptLine).map visibleText =
      ((parts.filter (fun l => !should_suppress_line l)).map strip_all_ansi) := by
    have h1 : g.filter keptLine =
        (g.filter nonblank).filter
          (fun l => !should_suppress_line (rstripWs l.content)) := by
      rw [List.filter_filter]
      apply List.filter_congr
      intro l _
      simp only [keptLine, hnbdef, Bool.and_comm]
    rw [h1, hpartsdef, List.map_filter, List.map_map]
    rfl
  rw [hneedles]
  exact inOrder_map_expansion convert_ansi_to_discord strip_all_ansi
    convert_expansion ['\n'] (parts.filter (fun l => !should_suppress_line l))

/-- **C2, amended.**  For every sequence of buffered lines (one add_output
call per line, no embedded newlines), the normalized text a flush hands to
the Chunker contains the visible text — ANSI-stripped, right-trimmed — of
every non-empty line the Normalizer does not suppress, as substrings in the
original input order; lines matching the progress-bar, spinner or thinking
patterns are dropped. -/
theorem c2_flush_preserves_visible (lines : List OutputLine)
    (hnl : ∀ l ∈ lines, '\n' ∉ l.content) :
    InOrderSubstrings ((lines.filter keptLine).map visibleText)
      (joinAll (chunker_inputs lines)) := by
  suffices h : ∀ gs : List (List OutputLine),
      (∀ l ∈ joinAll gs, '\n' ∉ l.content) →
      InOrderSubstrings (((joinAll gs).filter keptLine).map visibleText)
        (joinAll (gs.filterMap (fun g =>
          if stripWs (combine_lines g) = [] then none
          else some (process_claude_output (combine_lines g))))) by
    have h2 := h (group_lines_intelligently lines)
      (by rw [group_lines_join]; exact hnl)
    rw [group_lines_join] at h2
    exact h2
  intro gs
  induction gs with
  | nil => intro _; exact trivial
  | cons g gs ih =>
    intro hnl2
    have hg : ∀ l ∈ g, '\n' ∉ l.content := fun l hl =>
      hnl2 l (List.mem_append_left _ hl)
    have hrest := ih (fun l hl => hnl2 l (List.mem_append_right _ hl))
    show InOrderSubstrings (((g ++ joinAll gs).filter keptLine).map visibleText) _
    rw [List.filter_append, List.map_append]
    by_cases hdrop : stripWs (combine_lines g) = []
    · simp only [List.filterMap_cons, if_pos hdrop]
      rw [kept_of_group_dropped g hdrop]
      simpa using hrest
    · simp only [List.filterMap_cons, if_neg hdrop]
      have hgc := group_chunker_contains g hg hdrop
      exact inOrder_concat _ _ _ _ hgc hrest

/-- Witness for `c2_flush_preserves_visible` on the single line `"all good"`. -/
theorem c2_flush_preserves_visible_witness :
    (∀ l ∈ [c2wLine], '\n' ∉ l.content) ∧
    InOrderSubstrings (([c2wLine].filter keptLine).map visibleText)
      (joinAll (chunker_inputs [c2wLine])) :=
  ⟨by decide, c2_flush_preserves_visible [c2wLine] (by decide)⟩

/-- **C2, counterexample.**  The non-empty line `"a - b"` (its hyphen matches
the Normalizer's spinner class) is suppressed by the flush pipeline: the
emitted chunks do not contain its visible text. -/
theorem c2_line_dropped_cx :
    ¬ InOrderSubstrings [visibleText c2cxLine]
        (joinAll ((process_lines DEFAULT_MAX_LENGTH [c2cxLine]).map
          MessageChunk.content)) := by
  intro h
  obtain ⟨pre, rest, heq, _⟩ := h
  have hlen := congrArg List.length heq
  have h1 : (joinAll ((process_lines DEFAULT_MAX_LENGTH [c2cxLine]).map
      MessageChunk.content)).length = 2 := by decide
  have h2 : (visibleText c2cxLine).length = 5 := by decide
  rw [h1] at hlen
  simp only [List.length_append, h2] at hlen
  omega

/-! ## Claims C6–C10: the session registry -/

theorem regGet_map_replace (m : Registry) (id : String) (s : Session)
    (h : (m.find? (fun e => e.1 == id)).isSome) :
    regGet (m.map (fun e => if e.1 == id then (id, s) else e)) id = some s := by
  induction m with
  | nil => simp at h
  | cons e es ih =>
    cases hb : (e.1 == id) with
    | true =>
      show regGet ((if e.1 == id then (id, s) else e) :: es.map _) id = some s
      rw [if_pos hb]
      simp [regGet, List.find?_cons]
    | false =>
      rw [List.find?_cons, hb] at h
      have hres := ih h
      show regGet ((if e.1 == id then (id, s) else e) :: es.map _) id = some s
      rw [if_neg (by simp [hb])]
      unfold regGet
      rw [List.find?_cons, hb]
      exact hres

theorem regGet_append_single (m : Registry) (id : String) (s : Session)
    (h : m.find? (fun e => e.1 == id) = none) :
    regGet (m ++ [(id, s)]) id = some s := by
  induction m with
  | nil => simp [regGet, List.find?_cons]
  | cons e es ih =>
    rw [List.find?_cons] at h
    cases hb : (e.1 == id) with
    | true =>
      rw [hb] at h
      simp at h
    | false =>
      rw [hb] at h
      have hres := ih h
      show regGet (e :: (es ++ [(id, s)])) id = some s
      unfold regGet
      rw [List.find?_cons, hb]
      exact hres

theorem regGet_regPut (m : Registry) (id : String) (s : Session) :
    regGet (regPut m id s) id = some s := by
  unfold regPut
  by_cases h : (m.find? (fun e => e.1 == id)).isSome
  · rw [if_pos h]
    exact regGet_map_replace m id s h
  · rw [if_neg h]
    exact regGet_append_single m id s (Option.not_isSome_iff_eq_none.mp h)

theorem regGet_regDel (m : Registry) (id : String) :
    regGet (regDel m id) id = none := by
  unfold regGet regDel
  rw [Option.map_eq_none', List.find?_eq_none]
  intro e he
  have := (List.mem_filter.mp he).2
  simpa using this

theorem regGet_terminate_self (m : Registry) (id : String) (now : ℚ) :
    regGet (terminate_session m id now).2 id = none := by
  unfold terminate_session
  cases hsid : regGet m id with
  | none => exact hsid
  | some s => exact regGet_regDel m id

theorem regGet_terminate_none (m : Registry) (sid id : String) (now : ℚ)
    (h : regGet m id = none) :
    regGet (terminate_session m sid now).2 id = none := by
  unfold terminate_session
  cases hsid : regGet m sid with
  | none => exact h
  | some s =>
    show regGet (regDel m sid) id = none
    unfold regGet at h
    unfold regGet regDel
    rw [Option.map_eq_none', List.find?_eq_none] at h ⊢
    intro e he
    exact h e (List.mem_of_mem_filter he)

theorem fold_terminate_removes (now : ℚ) :
    ∀ (ids : List String) (acc : Registry) (id : String),
      (id ∈ ids ∨ regGet acc id = none) →
      regGet (ids.foldl (fun a sid => (terminate_session a sid now).2) acc) id =
        none := by
  intro ids
  induction ids with
  | nil =>
    intro acc id h
    rcases h with h | h
    · simp at h
    · exact h
  | cons sid rest ih =>
    intro acc id h
    simp only [List.foldl_cons]
    rcases h with h | h
    · rcases List.mem_cons.mp h with h2 | h2
      · subst h2
        exact ih _ id (Or.inr (regGet_terminate_self acc id now))
      · exact ih _ id (Or.inl h2)
    · exact ih _ id (Or.inr (regGet_terminate_none acc sid id now h))

/-- **C6.**  When starting the child process fails, `create_session` returns
null and the registry is unchanged: no session is registered and no id is
added to the map. -/
theorem c6_create_session_spawn_failure (m : Registry) (cands : List String)
    (wd : String) (now : ℚ) :
    create_session m cands wd false now = (none, m) := by
  unfold create_session
  cases generate_session_id cands m with
  | none => rfl
  | some sid => simp

/-- **C7.**  `send_command` on a session that is not active (in particular
one whose child has exited) returns false and leaves the registry — hence
the session's `command_history` — unchanged; when it returns true, the
stored session's history is the old history with the command appended (and
capped at the last 100). -/
theorem c7_send_command_history (m : Registry) (id command : String)
    (sendOk : Bool) (now : ℚ) :
    (∀ s, regGet m id = some s → s.is_active = false →
        send_command m id command sendOk now = (false, m)) ∧
    (∀ s, regGet m id = some s → (send_command m id command sendOk now).1 = true →
        ∃ s2, regGet (send_command m id command sendOk now).2 id = some s2 ∧
          s2.command_history =
            (let h := s.command_history ++ [command]
             if 100 < h.length then h.drop (h.length - 100) else h)) := by
  constructor
  · intro s hs hact
    simp only [send_command, hs]
    rw [if_pos hact]
  · intro s hs hres
    simp only [send_command, hs] at hres ⊢
    by_cases hact : s.is_active = false
    · rw [if_pos hact] at hres; simp at hres
    · rw [if_neg hact] at hres ⊢
      by_cases hctl : s.has_controller = false
      · rw [if_pos hctl] at hres; simp at hres
      · rw [if_neg hctl] at hres ⊢
        cases sendOk with
        | false => simp at hres
        | true =>
          rw [if_pos rfl]
          exact ⟨s.add_command command now,
            regGet_regPut m id (s.add_command command now), rfl⟩

/-- **C8.**  On a registered id, the first `terminate_session` returns true
and removes the entry; a second call with the same id is a no-op returning
false. -/
theorem c8_terminate_session_twice (m : Registry) (id : String)
    (now now2 : ℚ) (s : Session) (hs : regGet m id = some s) :
    (terminate_session m id now).1 = true ∧
    regGet (terminate_session m id now).2 id = none ∧
    terminate_session (terminate_session m id now).2 id now2 =
      (false, (terminate_session m id now).2) := by
  have h1 : terminate_session m id now = (true, regDel m id) := by
    simp only [terminate_session, hs]
  rw [h1]
  refine ⟨rfl, regGet_regDel m id, ?_⟩
  simp only [terminate_session, regGet_regDel m id]

/-- **C9.**  Whenever the candidate stream offers some id that is still
free, `generate_session_id` returns an id that is not a key of the current
map; with 6-character candidates (the alphabet the RNG draws from) the
returned id has length 6. -/
theorem c9_generate_id_fresh (cands : List String) (m : Registry)
    (hlen : ∀ c ∈ cands, c.length = 6)
    (hfree : ∃ c ∈ cands, regGet m c = none) :
    ∃ id, generate_session_id cands m = some id ∧ regGet m id = none ∧
      id.length = 6 := by
  obtain ⟨c, hc, hfreec⟩ := hfree
  have hsome : (cands.find? (fun c => (regGet m c).isNone)).isSome := by
    rw [List.find?_isSome]
    exact ⟨c, hc, by simp [hfreec]⟩
  obtain ⟨id, hid⟩ := Option.isSome_iff_exists.mp hsome
  refine ⟨id, hid, ?_, hlen id (List.mem_of_find?_eq_some hid)⟩
  have := List.find?_some hid
  simpa using this

/-- **C10.**  A terminated session is expired regardless of the timeout and
of how recent its `last_activity` is, and the cleanup sweep removes it from
the registry on its next pass. -/
theorem c10_terminated_swept (m : Registry) (id : String) (s : Session)
    (timeout now : ℚ) (hs : regGet m id = some s)
    (hterm : s.status = "terminated") :
    s.is_expired timeout now = true ∧
    regGet (cleanup_expired_sessions m timeout now) id = none := by
  have hexp : s.is_expired timeout now = true := by
    unfold Session.is_expired
    rw [if_pos (by simp [hterm])]
  refine ⟨hexp, ?_⟩
  unfold cleanup_expired_sessions
  apply fold_terminate_removes
  left
  unfold regGet at hs
  obtain ⟨e, hfind, hsnd⟩ := Option.map_eq_some'.mp hs
  have hmem : e ∈ m := List.mem_of_find?_eq_some hfind
  have hkey := List.find?_some hfind
  have hkey2 : e.1 = id := by simpa using hkey
  have hf : e ∈ m.filter (fun e => e.2.is_expired timeout now) :=
    List.mem_filter.mpr ⟨hmem, by rw [hsnd]; exact hexp⟩
  have hmap : e.1 ∈ (m.filter (fun e => e.2.is_expired timeout now)).map
      (fun e => e.1) :=
    List.mem_map_of_mem _ hf
  rw [hkey2] at hmap
  exact hmap

/-- Witness for `c7_send_command_history`: a dead session rejects the
command and keeps its history; a live one stores the appended history. -/
theorem c7_send_command_witness :
    send_command [("S1", deadSession)] "S1" "ls" true 0 =
      (false, [("S1", deadSession)]) ∧
    (∃ s2, regGet (send_command [("S2", liveSession)] "S2" "go" true 7).2 "S2" =
        some s2 ∧
      s2.command_history =
        (let h := liveSession.command_history ++ ["go"]
         if 100 < h.length then h.drop (h.length - 100) else h)) :=
  ⟨(c7_send_command_history [("S1", deadSession)] "S1" "ls" true 0).1 deadSession
      (by decide) (by decide),
    (c7_send_command_history [("S2", liveSession)] "S2" "go" true 7).2 liveSession
      (by decide) (by decide)⟩

/-- Witness for `c8_terminate_session_twice` on a one-entry registry. -/
theorem c8_terminate_session_twice_witness :
    (terminate_session [("S2", liveSession)] "S2" 1).1 = true ∧
    regGet (terminate_session [("S2", liveSession)] "S2" 1).2 "S2" = none ∧
    terminate_session (terminate_session [("S2", liveSession)] "S2" 1).2 "S2" 2 =
      (false, (terminate_session [("S2", liveSession)] "S2" 1).2) :=
  c8_terminate_session_twice [("S2", liveSession)] "S2" 1 2 liveSession (by decide)

/-- Witness for `c9_generate_id_fresh` on an empty registry. -/
theorem c9_generate_id_fresh_witness :
    ∃ id, generate_session_id ["ABC123"] ([] : Registry) = some id ∧
      regGet ([] : Registry) id = none ∧ id.length = 6 :=
  c9_generate_id_fresh ["ABC123"] ([] : Registry) (by decide) (by decide)

/-- Witness for `c10_terminated_swept`: a terminated session with recent
activity (idle for less than the timeout) is still swept. -/
theorem c10_terminated_swept_witness :
    termSession.is_expired 1000 100 = true ∧
    regGet (cleanup_expired_sessions [("S3", termSession)] 1000 100) "S3" =
      none :=
  c10_terminated_swept [("S3", termSession)] "S3" termSession 1000 100
    (by decide) (by decide)

end ClaudeBridge
